import Mathlib

/-!
Verification of the binomial real-options lattice code in `trees.py`.

The three computational functions (`base_instr`, `internal_value_of_options`,
`delay_option_value`) are embedded below over `ℝ`, with a lattice as a
`List (List ℝ)` of time slices.  A Python `int` argument is modelled as `ℤ`;
`range(k)` is empty for `k ≤ 0`, which `Int.toNat` reproduces.
-/

namespace Trees

noncomputable section

/-- One pass of the slice-building loop shared by `base_instr` and
`internal_value_of_options`: iterating over the previous slice, the first
element `s` first contributes `s * u` (the `if len(tmp) == 0` branch), and
every element contributes `s * d`.  An empty previous slice leaves the new
slice empty (the loop body never runs). -/
def nextSlice (u d : ℝ) : List ℝ → List ℝ
  | [] => []
  | s :: rest => s * u :: (s :: rest).map (fun t => t * d)

/-- The accumulation loop of `base_instr` (`for i in range(periods):
base_price.append(tmp)`), rendered front-to-back: starting from the current
last slice `cur`, run `nextSlice` `k` more times, keeping every slice. -/
def buildFrom (u d : ℝ) (cur : List ℝ) : ℕ → List (List ℝ)
  | 0 => [cur]
  | k + 1 => cur :: buildFrom u d (nextSlice u d cur) k

/-- `base_instr(periods, base_price, volatility)` from `trees.py`:
`u = exp(volatility)`, `d = exp(-volatility)`, start from `[[base_price]]` and
append `periods` derived slices (none when `periods ≤ 0`). -/
def base_instr (periods : ℤ) (base_price volatility : ℝ) : List (List ℝ) :=
  buildFrom (Real.exp volatility) (Real.exp (-volatility)) [base_price] periods.toNat

/-- The node rewrite of the second loop of `internal_value_of_options`:
`if s - investment < 0: 0 else: s - investment`, applied position-wise. -/
def clampSlice (investment : ℝ) (slice : List ℝ) : List ℝ :=
  slice.map (fun s => if s - investment < 0 then 0 else s - investment)

/-- The second loop of `internal_value_of_options`
(`for i in range(periods + 1)`): the first `k` slices are rewritten by
`clampSlice`; any later slices are left untouched. -/
def clampFirst (investment : ℝ) : ℕ → List (List ℝ) → List (List ℝ)
  | 0, L => L
  | _ + 1, [] => []
  | k + 1, s :: rest => clampSlice investment s :: clampFirst investment k rest

/-- `internal_value_of_options(periods, base_price, investment, volatility)`
from `trees.py`: build the base-instrument lattice, then clamp slices
`0 .. periods` node-wise. -/
def internal_value_of_options (periods : ℤ) (base_price investment volatility : ℝ) :
    List (List ℝ) :=
  clampFirst investment (periods + 1).toNat (base_instr periods base_price volatility)

/-- The inner loop of `delay_option_value` over one slice: at position `pos`
the continuation value reads nodes `pos` and `pos + 1` of the already-updated
following slice `nextW` and discounts by `exp(-rf)`; the node becomes the
continuation value when it strictly exceeds the intrinsic value `v`, else `v`.
(Out-of-range reads default to `0`; they never occur on well-shaped input.) -/
def inductStep (q rf : ℝ) (nextW : List ℝ) : List ℝ → ℕ → List ℝ
  | [], _ => []
  | v :: rest, pos =>
    let c := (q * nextW.getD pos 0 + (1 - q) * nextW.getD (pos + 1) 0) * Real.exp (-rf)
    (if c > v then c else v) :: inductStep q rf nextW rest (pos + 1)

/-- The backward loop of `delay_option_value`
(`for i in range(periods - 1, -1, -1)`), rendered back-to-front: the terminal
slice is kept verbatim, and each earlier slice is rewritten by `inductStep`
against the already-updated slice that follows it. -/
def backInduct (q rf : ℝ) : List (List ℝ) → List (List ℝ)
  | [] => []
  | [vn] => [vn]
  | vi :: vj :: rest =>
    let w := backInduct q rf (vj :: rest)
    inductStep q rf (w.headD []) vi 0 :: w

/-- `delay_option_value(periods, base_price, rf, investment, decline,
volatility)` from `trees.py`: compute `q = (exp(rf - decline) - d) / (u - d)`
and run backward induction over the intrinsic-value lattice. -/
def delay_option_value (periods : ℤ) (base_price rf investment decline volatility : ℝ) :
    List (List ℝ) :=
  backInduct
    ((Real.exp (rf - decline) - Real.exp (-volatility)) /
      (Real.exp volatility - Real.exp (-volatility)))
    rf (internal_value_of_options periods base_price investment volatility)

/-- Node `j` of slice `i` of a lattice, with out-of-range reads defaulting to
`0` (the theorems only use it within bounds). -/
def node (L : List (List ℝ)) (i j : ℕ) : ℝ := (L.getD i []).getD j 0

end

/-! ### Shape and closed-form lemmas for the forward construction -/

theorem nextSlice_cons (u d s : ℝ) (rest : List ℝ) :
    nextSlice u d (s :: rest) = s * u :: (s :: rest).map (fun t => t * d) := rfl

theorem nextSlice_map_range (u d : ℝ) (f : ℕ → ℝ) (k : ℕ) :
    nextSlice u d ((List.range (k + 1)).map f) =
      f 0 * u :: (List.range (k + 1)).map (fun j => f j * d) := by
  rw [List.range_succ_eq_map k, List.map_cons, nextSlice_cons,
    ← List.map_cons f 0, ← List.range_succ_eq_map k, List.map_map]
  rfl

theorem nextSlice_iterate (u d b : ℝ) :
    ∀ i : ℕ, (nextSlice u d)^[i] [b] =
      (List.range (i + 1)).map (fun j => b * u ^ (i - j) * d ^ j) := by
  intro i
  induction i with
  | zero => simp [List.range_succ]
  | succ i ih =>
    rw [Function.iterate_succ_apply', ih, nextSlice_map_range,
      List.range_succ_eq_map (i + 1), List.map_cons, List.map_map]
    congr 1
    · simp [pow_succ]
      ring
    · apply List.map_congr_left
      intro j _
      simp only [Function.comp_apply, Nat.succ_sub_succ_eq_sub, pow_succ]
      ring

theorem buildFrom_length (u d : ℝ) : ∀ (n : ℕ) (cur : List ℝ),
    (buildFrom u d cur n).length = n + 1 := by
  intro n
  induction n with
  | zero => intro cur; rfl
  | succ n ih => intro cur; simp [buildFrom, ih]

theorem buildFrom_getD (u d : ℝ) : ∀ (n : ℕ) (cur : List ℝ) (i : ℕ), i ≤ n →
    (buildFrom u d cur n).getD i [] = (nextSlice u d)^[i] cur := by
  intro n
  induction n with
  | zero =>
    intro cur i hi
    interval_cases i
    rfl
  | succ n ih =>
    intro cur i hi
    cases i with
    | zero => rfl
    | succ i =>
      rw [buildFrom, List.getD_cons_succ, ih (nextSlice u d cur) i (Nat.le_of_succ_le_succ hi),
        Function.iterate_succ_apply]

theorem base_instr_length (n : ℕ) (bp vol : ℝ) :
    (base_instr (n : ℤ) bp vol).length = n + 1 := by
  simp [base_instr, buildFrom_length]

theorem base_instr_getD (n : ℕ) (bp vol : ℝ) (i : ℕ) (hi : i ≤ n) :
    (base_instr (n : ℤ) bp vol).getD i [] =
      (List.range (i + 1)).map
        (fun j => bp * Real.exp vol ^ (i - j) * Real.exp (-vol) ^ j) := by
  rw [base_instr, Int.toNat_natCast, buildFrom_getD _ _ n [bp] i hi, nextSlice_iterate]

theorem base_instr_slice_length (n : ℕ) (bp vol : ℝ) (i : ℕ) (hi : i ≤ n) :
    ((base_instr (n : ℤ) bp vol).getD i []).length = i + 1 := by
  rw [base_instr_getD n bp vol i hi]
  simp

/-! ### The intrinsic-value lattice -/

theorem clampFirst_of_length_le (inv : ℝ) :
    ∀ (k : ℕ) (L : List (List ℝ)), L.length ≤ k →
      clampFirst inv k L = L.map (clampSlice inv) := by
  intro k
  induction k with
  | zero =>
    intro L hL
    rw [Nat.le_zero, List.length_eq_zero] at hL
    subst hL
    rfl
  | succ k ih =>
    intro L hL
    cases L with
    | nil => rfl
    | cons s rest =>
      rw [clampFirst, List.map_cons, ih rest (Nat.le_of_succ_le_succ hL)]

theorem internal_value_eq_map_clamp (n : ℕ) (bp inv vol : ℝ) :
    internal_value_of_options (n : ℤ) bp inv vol =
      (base_instr (n : ℤ) bp vol).map (clampSlice inv) := by
  rw [internal_value_of_options]
  have h1 : ((n : ℤ) + 1).toNat = n + 1 := by
    rw [show ((n : ℤ) + 1) = ((n + 1 : ℕ) : ℤ) by push_cast; ring, Int.toNat_natCast]
  rw [h1]
  exact clampFirst_of_length_le inv (n + 1) _ (le_of_eq (base_instr_length n bp vol))

theorem clampSlice_eq_map_max (inv : ℝ) (slice : List ℝ) :
    clampSlice inv slice = slice.map (fun s => max (s - inv) 0) := by
  rw [clampSlice]
  apply List.map_congr_left
  intro s _
  rcases lt_trichotomy (s - inv) 0 with h | h | h
  · rw [if_pos h, max_eq_right h.le]
  · rw [if_neg (by rw [h]; exact lt_irrefl 0), h, max_self]
  · rw [if_neg (not_lt_of_gt h), max_eq_left h.le]

theorem internal_value_length (n : ℕ) (bp inv vol : ℝ) :
    (internal_value_of_options (n : ℤ) bp inv vol).length = n + 1 := by
  rw [internal_value_eq_map_clamp, List.length_map, base_instr_length]

theorem getD_map_clampSlice (inv : ℝ) (L : List (List ℝ)) (i : ℕ) (hi : i < L.length) :
    (L.map (clampSlice inv)).getD i [] = clampSlice inv (L.getD i []) := by
  induction L generalizing i with
  | nil => simp at hi
  | cons s rest ih =>
    cases i with
    | zero => rfl
    | succ i =>
      rw [List.map_cons, List.getD_cons_succ, List.getD_cons_succ]
      exact ih i (Nat.lt_of_succ_lt_succ hi)

theorem internal_value_getD (n : ℕ) (bp inv vol : ℝ) (i : ℕ) (hi : i ≤ n) :
    (internal_value_of_options (n : ℤ) bp inv vol).getD i [] =
      clampSlice inv ((base_instr (n : ℤ) bp vol).getD i []) := by
  rw [internal_value_eq_map_clamp]
  exact getD_map_clampSlice inv _ i (by rw [base_instr_length]; omega)

theorem internal_value_slice_length (n : ℕ) (bp inv vol : ℝ) (i : ℕ) (hi : i ≤ n) :
    ((internal_value_of_options (n : ℤ) bp inv vol).getD i []).length = i + 1 := by
  rw [internal_value_getD n bp inv vol i hi, clampSlice, List.length_map,
    base_instr_slice_length n bp vol i hi]

/-! ### The backward-induction pass -/

theorem ite_gt_eq_max (a b : ℝ) : (if a > b then a else b) = max a b := by
  rcases le_or_lt a b with h | h
  · rw [if_neg (not_lt_of_ge h), max_eq_right h]
  · rw [if_pos h, max_eq_left h.le]

theorem headD_eq_getD {α : Type} (l : List α) (dflt : α) : l.headD dflt = l.getD 0 dflt := by
  cases l <;> rfl

theorem inductStep_nil (q rf : ℝ) (nxt : List ℝ) (pos : ℕ) :
    inductStep q rf nxt [] pos = [] := rfl

theorem inductStep_cons (q rf : ℝ) (nxt : List ℝ) (v : ℝ) (rest : List ℝ) (pos : ℕ) :
    inductStep q rf nxt (v :: rest) pos =
      (if (q * nxt.getD pos 0 + (1 - q) * nxt.getD (pos + 1) 0) * Real.exp (-rf) > v
        then (q * nxt.getD pos 0 + (1 - q) * nxt.getD (pos + 1) 0) * Real.exp (-rf)
        else v) :: inductStep q rf nxt rest (pos + 1) := rfl

theorem inductStep_length (q rf : ℝ) (nxt : List ℝ) :
    ∀ (l : List ℝ) (pos : ℕ), (inductStep q rf nxt l pos).length = l.length := by
  intro l
  induction l with
  | nil => intro pos; rfl
  | cons v rest ih =>
    intro pos
    rw [inductStep_cons, List.length_cons, List.length_cons, ih]

theorem inductStep_getD (q rf : ℝ) (nxt : List ℝ) :
    ∀ (l : List ℝ) (pos j : ℕ), j < l.length →
      (inductStep q rf nxt l pos).getD j 0 =
        max ((q * nxt.getD (pos + j) 0 + (1 - q) * nxt.getD (pos + j + 1) 0) * Real.exp (-rf))
          (l.getD j 0) := by
  intro l
  induction l with
  | nil => intro pos j hj; simp at hj
  | cons v rest ih =>
    intro pos j hj
    cases j with
    | zero =>
      simp only [Nat.add_zero]
      rw [inductStep_cons, List.getD_cons_zero, List.getD_cons_zero]
      exact ite_gt_eq_max _ v
    | succ j =>
      rw [inductStep_cons, List.getD_cons_succ, List.getD_cons_succ,
        ih (pos + 1) j (Nat.lt_of_succ_lt_succ hj)]
      have e1 : pos + 1 + j = pos + (j + 1) := by omega
      rw [e1]

theorem inductStep_le (q rf : ℝ) (nxt : List ℝ) :
    ∀ (l : List ℝ) (pos j : ℕ), l.getD j 0 ≤ (inductStep q rf nxt l pos).getD j 0 := by
  intro l
  induction l with
  | nil => intro pos j; rw [inductStep_nil]
  | cons v rest ih =>
    intro pos j
    cases j with
    | zero =>
      rw [inductStep_cons, List.getD_cons_zero, List.getD_cons_zero]
      split
      · exact le_of_lt (by assumption)
      · exact le_refl v
    | succ j =>
      rw [inductStep_cons, List.getD_cons_succ, List.getD_cons_succ]
      exact ih (pos + 1) j

theorem backInduct_nil (q rf : ℝ) : backInduct q rf [] = [] := rfl

theorem backInduct_single (q rf : ℝ) (vn : List ℝ) : backInduct q rf [vn] = [vn] := rfl

theorem backInduct_cons2 (q rf : ℝ) (vi vj : List ℝ) (rest : List (List ℝ)) :
    backInduct q rf (vi :: vj :: rest) =
      inductStep q rf ((backInduct q rf (vj :: rest)).headD []) vi 0 ::
        backInduct q rf (vj :: rest) := rfl

theorem backInduct_length (q rf : ℝ) :
    ∀ V : List (List ℝ), (backInduct q rf V).length = V.length := by
  intro V
  induction V with
  | nil => rfl
  | cons vi rest ih =>
    cases rest with
    | nil => rfl
    | cons vj rest' =>
      rw [backInduct_cons2, List.length_cons, List.length_cons, ih]

theorem backInduct_slice_length (q rf : ℝ) :
    ∀ (V : List (List ℝ)) (i : ℕ),
      ((backInduct q rf V).getD i []).length = (V.getD i []).length := by
  intro V
  induction V with
  | nil => intro i; rfl
  | cons vi rest ih =>
    intro i
    cases rest with
    | nil => cases i <;> rfl
    | cons vj rest' =>
      cases i with
      | zero =>
        rw [backInduct_cons2, List.getD_cons_zero, List.getD_cons_zero, inductStep_length]
      | succ i =>
        rw [backInduct_cons2, List.getD_cons_succ, List.getD_cons_succ]
        exact ih i

theorem backInduct_terminal (q rf : ℝ) :
    ∀ V : List (List ℝ),
      (backInduct q rf V).getD (V.length - 1) [] = V.getD (V.length - 1) [] := by
  intro V
  induction V with
  | nil => rfl
  | cons vi rest ih =>
    cases rest with
    | nil => rfl
    | cons vj rest' =>
      rw [backInduct_cons2]
      have h1 : (vi :: vj :: rest').length - 1 = rest'.length + 1 := by simp
      rw [h1, List.getD_cons_succ, List.getD_cons_succ]
      have h2 : (vj :: rest').length - 1 = rest'.length := by simp
      rw [← h2]
      exact ih

theorem backInduct_step (q rf : ℝ) :
    ∀ (V : List (List ℝ)) (i : ℕ), i + 1 < V.length →
      (backInduct q rf V).getD i [] =
        inductStep q rf ((backInduct q rf V).getD (i + 1) []) (V.getD i []) 0 := by
  intro V
  induction V with
  | nil => intro i hi; simp at hi
  | cons vi rest ih =>
    intro i hi
    cases rest with
    | nil => simp at hi
    | cons vj rest' =>
      cases i with
      | zero =>
        rw [backInduct_cons2, List.getD_cons_zero, List.getD_cons_succ,
          List.getD_cons_zero, headD_eq_getD]
      | succ i =>
        rw [backInduct_cons2, List.getD_cons_succ, List.getD_cons_succ, List.getD_cons_succ]
        exact ih i (by simpa using Nat.lt_of_succ_lt_succ hi)

theorem clamp_eq_max (inv s : ℝ) : (if s - inv < 0 then 0 else s - inv) = max (s - inv) 0 := by
  rcases lt_or_ge (s - inv) 0 with h | h
  · rw [if_pos h, max_eq_right h.le]
  · rw [if_neg (not_lt_of_ge h), max_eq_left h]

theorem getD_map_range (f : ℕ → ℝ) (k j : ℕ) (hj : j < k) :
    ((List.range k).map f).getD j 0 = f j := by
  induction k generalizing j with
  | zero => omega
  | succ k ih =>
    rcases Nat.lt_or_ge j k with h | h
    · rw [List.range_succ, List.map_append, List.getD_eq_getElem?_getD,
        List.getElem?_append, if_pos (by simpa using h), ← List.getD_eq_getElem?_getD, ih j h]
    · have hjk : j = k := by omega
      subst hjk
      rw [List.range_succ, List.map_append, List.getD_eq_getElem?_getD,
        List.getElem?_append, if_neg (by simp)]
      simp

theorem getD_clampSlice_nonneg (inv : ℝ) :
    ∀ (slice : List ℝ) (j : ℕ), 0 ≤ (clampSlice inv slice).getD j 0 := by
  intro slice
  induction slice with
  | nil => intro j; rw [clampSlice]; simp
  | cons s rest ih =>
    intro j
    cases j with
    | zero =>
      rw [clampSlice, List.map_cons, List.getD_cons_zero]
      rcases lt_or_ge (s - inv) 0 with h | h
      · rw [if_pos h]
      · rw [if_neg (not_lt_of_ge h)]; exact h
    | succ j =>
      rw [clampSlice, List.map_cons, List.getD_cons_succ]
      exact ih j

theorem backInduct_le (q rf : ℝ) :
    ∀ (V : List (List ℝ)) (i j : ℕ),
      (V.getD i []).getD j 0 ≤ ((backInduct q rf V).getD i []).getD j 0 := by
  intro V
  induction V with
  | nil => intro i j; exact le_refl _
  | cons vi rest ih =>
    intro i j
    cases rest with
    | nil => exact le_refl _
    | cons vj rest' =>
      cases i with
      | zero =>
        rw [backInduct_cons2, List.getD_cons_zero, List.getD_cons_zero]
        exact inductStep_le q rf _ vi 0 j
      | succ i =>
        rw [backInduct_cons2, List.getD_cons_succ, List.getD_cons_succ]
        exact ih i j

/-! ### Claim theorems -/

/-- C2: for `periods = n ≥ 0`, positive `basePrice` and real `volatility`, node
`j` of slice `i` of the `base_instr` lattice equals
`basePrice * u^(i-j) * d^j` with `u = exp(volatility)`, `d = exp(-volatility)`;
node `0` of slice `i` is `basePrice * exp(volatility * i)` and the last node
(index `i`) is `basePrice * exp(-(volatility * i))`. -/
theorem base_instr_node_values (n : ℕ) (bp vol : ℝ) (hbp : 0 < bp) (i j : ℕ)
    (hi : i ≤ n) (hj : j ≤ i) :
    node (base_instr (n : ℤ) bp vol) i j =
      bp * Real.exp vol ^ (i - j) * Real.exp (-vol) ^ j ∧
    node (base_instr (n : ℤ) bp vol) i 0 = bp * Real.exp (vol * i) ∧
    node (base_instr (n : ℤ) bp vol) i i = bp * Real.exp (-(vol * i)) := by
  have key : ∀ j', j' ≤ i → node (base_instr (n : ℤ) bp vol) i j' =
      bp * Real.exp vol ^ (i - j') * Real.exp (-vol) ^ j' := by
    intro j' hj'
    rw [node, base_instr_getD n bp vol i hi]
    exact getD_map_range _ (i + 1) j' (by omega)
  refine ⟨key j hj, ?_, ?_⟩
  · rw [key 0 (Nat.zero_le i), Nat.sub_zero, pow_zero, mul_one, ← Real.exp_nat_mul,
      mul_comm (i : ℝ) vol]
  · rw [key i le_rfl, Nat.sub_self, pow_zero, mul_one, ← Real.exp_nat_mul,
      show (i : ℝ) * -vol = -(vol * i) by ring]

/-- Witness for C2 at `n = 1`, `basePrice = 1`, `volatility = 1`, `i = 1`,
`j = 0`. -/
theorem base_instr_node_values_witness :
    (0 : ℝ) < 1 ∧ (1 : ℕ) ≤ 1 ∧ (0 : ℕ) ≤ 1 ∧
    node (base_instr ((1 : ℕ) : ℤ) 1 1) 1 0 =
      1 * Real.exp 1 ^ (1 - 0) * Real.exp (-1) ^ 0 :=
  ⟨by norm_num, le_rfl, Nat.zero_le 1,
    (base_instr_node_values 1 1 1 (by norm_num) 1 0 le_rfl (Nat.zero_le 1)).1⟩

/-- C3: for `periods = n ≥ 0`, the intrinsic-value lattice is exactly the
`base_instr` lattice with every node `s` replaced by `max(s - investment, 0)`,
node-by-node over every slice. -/
theorem internal_value_is_clamped_base (n : ℕ) (bp inv vol : ℝ) (hbp : 0 < bp) :
    internal_value_of_options (n : ℤ) bp inv vol =
      (base_instr (n : ℤ) bp vol).map (fun slice => slice.map fun s => max (s - inv) 0) := by
  rw [internal_value_eq_map_clamp]
  apply List.map_congr_left
  intro slice _
  exact clampSlice_eq_map_max inv slice

/-- Witness for C3 at `n = 1`, `basePrice = 2`, `investment = 1`,
`volatility = 1`. -/
theorem internal_value_is_clamped_base_witness :
    (0 : ℝ) < 2 ∧
    internal_value_of_options ((1 : ℕ) : ℤ) 2 1 1 =
      (base_instr ((1 : ℕ) : ℤ) 2 1).map (fun slice => slice.map fun s => max (s - 1) 0) :=
  ⟨by norm_num, internal_value_is_clamped_base 1 2 1 1 (by norm_num)⟩

/-- C7: every node of the intrinsic-value lattice is non-negative (out-of-range
reads default to `0` and are trivially non-negative). -/
theorem internal_value_nonneg (n : ℕ) (bp inv vol : ℝ) (i j : ℕ) :
    0 ≤ node (internal_value_of_options (n : ℤ) bp inv vol) i j := by
  rcases le_or_lt i n with hi | hi
  · rw [node, internal_value_getD n bp inv vol i hi]
    exact getD_clampSlice_nonneg inv _ j
  · have hlen : (internal_value_of_options (n : ℤ) bp inv vol).length ≤ i := by
      rw [internal_value_length]; omega
    rw [node, List.getD_eq_default _ _ hlen]
    simp

/-- C8: for `periods = n ≥ 0`, each of the three pipeline stages returns a
lattice with `n + 1` slices in which slice `i` has exactly `i + 1` nodes. -/
theorem pipeline_shape (n : ℕ) (bp rf inv decline vol : ℝ) (i : ℕ) (hi : i ≤ n) :
    ((base_instr (n : ℤ) bp vol).length = n + 1 ∧
      ((base_instr (n : ℤ) bp vol).getD i []).length = i + 1) ∧
    ((internal_value_of_options (n : ℤ) bp inv vol).length = n + 1 ∧
      ((internal_value_of_options (n : ℤ) bp inv vol).getD i []).length = i + 1) ∧
    ((delay_option_value (n : ℤ) bp rf inv decline vol).length = n + 1 ∧
      ((delay_option_value (n : ℤ) bp rf inv decline vol).getD i []).length = i + 1) := by
  refine ⟨⟨base_instr_length n bp vol, base_instr_slice_length n bp vol i hi⟩,
    ⟨internal_value_length n bp inv vol, internal_value_slice_length n bp inv vol i hi⟩,
    ?_, ?_⟩
  · simp only [delay_option_value]
    rw [backInduct_length, internal_value_length]
  · simp only [delay_option_value]
    rw [backInduct_slice_length, internal_value_slice_length n bp inv vol i hi]

/-- Witness for C8 at `n = 0` (single-slice, single-node lattices). -/
theorem pipeline_shape_witness :
    (0 : ℕ) ≤ 0 ∧
    ((base_instr ((0 : ℕ) : ℤ) 90 1).length = 0 + 1 ∧
      ((base_instr ((0 : ℕ) : ℤ) 90 1).getD 0 []).length = 0 + 1) :=
  ⟨le_rfl, (pipeline_shape 0 90 0 100 0 1 0 le_rfl).1⟩

/-- C6: with `u ≠ d`, every node of the backward-induction lattice dominates
the corresponding node of the intrinsic-value lattice. -/
theorem delay_dominates_intrinsic (n : ℕ) (bp rf inv decline vol : ℝ)
    (hud : Real.exp vol ≠ Real.exp (-vol)) (i j : ℕ) (hi : i ≤ n) (hj : j ≤ i) :
    node (internal_value_of_options (n : ℤ) bp inv vol) i j ≤
      node (delay_option_value (n : ℤ) bp rf inv decline vol) i j := by
  simp only [delay_option_value, node]
  exact backInduct_le _ rf _ i j

/-- Witness for C6 at `n = 1`, `volatility = 1`, `i = j = 0`. -/
theorem delay_dominates_intrinsic_witness :
    Real.exp 1 ≠ Real.exp (-1) ∧ (0 : ℕ) ≤ 1 ∧ (0 : ℕ) ≤ 0 ∧
    node (internal_value_of_options ((1 : ℕ) : ℤ) 90 100 1) 0 0 ≤
      node (delay_option_value ((1 : ℕ) : ℤ) 90 (6 / 100) 100 (5 / 100) 1) 0 0 :=
  ⟨(Real.exp_lt_exp.mpr (by norm_num : (-1 : ℝ) < 1)).ne', Nat.zero_le 1, le_rfl,
    delay_dominates_intrinsic 1 90 (6 / 100) 100 (5 / 100) 1
      (Real.exp_lt_exp.mpr (by norm_num : (-1 : ℝ) < 1)).ne' 0 0 (Nat.zero_le 1) le_rfl⟩

/-- C10: for `periods = 0` and `u ≠ d`, `delay_option_value` returns the
single-slice, single-node lattice `[[max(basePrice - investment, 0)]]`: the
backward loop runs zero iterations and the result is the intrinsic-value
lattice exactly. -/
theorem delay_option_value_zero_periods (bp rf inv decline vol : ℝ)
    (hud : Real.exp vol ≠ Real.exp (-vol)) :
    delay_option_value 0 bp rf inv decline vol = [[max (bp - inv) 0]] := by
  have h1 : internal_value_of_options 0 bp inv vol = [[max (bp - inv) 0]] := by
    rw [internal_value_of_options, base_instr]
    show clampFirst inv 1 (buildFrom _ _ [bp] 0) = _
    rw [buildFrom, clampFirst, clampFirst, clampSlice, List.map, List.map, clamp_eq_max]
  simp only [delay_option_value, h1, backInduct_single]

/-- Witness for C10 at `basePrice = 2`, `investment = 1`, `volatility = 1`. -/
theorem delay_option_value_zero_periods_witness :
    Real.exp 1 ≠ Real.exp (-1) ∧
    delay_option_value 0 2 0 1 0 1 = [[max (2 - 1) 0]] :=
  ⟨(Real.exp_lt_exp.mpr (by norm_num : (-1 : ℝ) < 1)).ne',
    delay_option_value_zero_periods 2 0 1 0 1
      (Real.exp_lt_exp.mpr (by norm_num : (-1 : ℝ) < 1)).ne'⟩

/-- C1: with `u ≠ d`, the terminal slice of the `delay_option_value` lattice
`W` equals the terminal slice of the intrinsic-value lattice `V`, and for every
interior node (`i < n`, `j ≤ i`)
`W[i][j] = max((q * W[i+1][j] + (1-q) * W[i+1][j+1]) * exp(-rf), V[i][j])`
with `q = (exp(rf - decline) - d) / (u - d)`. -/
theorem delay_option_value_recurrence (n : ℕ) (bp rf inv decline vol : ℝ)
    (hud : Real.exp vol ≠ Real.exp (-vol)) :
    (delay_option_value (n : ℤ) bp rf inv decline vol).getD n [] =
      (internal_value_of_options (n : ℤ) bp inv vol).getD n [] ∧
    ∀ i j : ℕ, i < n → j ≤ i →
      node (delay_option_value (n : ℤ) bp rf inv decline vol) i j =
        max (((Real.exp (rf - decline) - Real.exp (-vol)) /
                (Real.exp vol - Real.exp (-vol)) *
                node (delay_option_value (n : ℤ) bp rf inv decline vol) (i + 1) j +
              (1 - (Real.exp (rf - decline) - Real.exp (-vol)) /
                (Real.exp vol - Real.exp (-vol))) *
                node (delay_option_value (n : ℤ) bp rf inv decline vol) (i + 1) (j + 1)) *
            Real.exp (-rf))
          (node (internal_value_of_options (n : ℤ) bp inv vol) i j) := by
  simp only [delay_option_value, node]
  constructor
  · have hterm := backInduct_terminal
      ((Real.exp (rf - decline) - Real.exp (-vol)) / (Real.exp vol - Real.exp (-vol))) rf
      (internal_value_of_options (n : ℤ) bp inv vol)
    rw [internal_value_length] at hterm
    simpa using hterm
  · intro i j hi hj
    rw [backInduct_step _ rf _ i (by rw [internal_value_length]; omega),
      inductStep_getD _ rf _ _ 0 j
        (by rw [internal_value_slice_length n bp inv vol i (le_of_lt hi)]; omega)]
    simp only [Nat.zero_add]

/-- Witness for C1 at `n = 1`, `basePrice = 90`, `rf = 0.06`,
`investment = 100`, `decline = 0.05`, `volatility = 1` (so `u ≠ d`): the
terminal-slice equality, and the recurrence instantiated at `i = j = 0`. -/
theorem delay_option_value_recurrence_witness :
    Real.exp 1 ≠ Real.exp (-1) ∧ (0 : ℕ) < 1 ∧ (0 : ℕ) ≤ 0 ∧
    ((delay_option_value ((1 : ℕ) : ℤ) 90 (6 / 100) 100 (5 / 100) 1).getD 1 [] =
      (internal_value_of_options ((1 : ℕ) : ℤ) 90 100 1).getD 1 [] ∧
    node (delay_option_value ((1 : ℕ) : ℤ) 90 (6 / 100) 100 (5 / 100) 1) 0 0 =
      max (((Real.exp (6 / 100 - 5 / 100) - Real.exp (-1)) /
              (Real.exp 1 - Real.exp (-1)) *
              node (delay_option_value ((1 : ℕ) : ℤ) 90 (6 / 100) 100 (5 / 100) 1)
                (0 + 1) 0 +
            (1 - (Real.exp (6 / 100 - 5 / 100) - Real.exp (-1)) /
              (Real.exp 1 - Real.exp (-1))) *
              node (delay_option_value ((1 : ℕ) : ℤ) 90 (6 / 100) 100 (5 / 100) 1)
                (0 + 1) (0 + 1)) *
          Real.exp (-(6 / 100)))
        (node (internal_value_of_options ((1 : ℕ) : ℤ) 90 100 1) 0 0)) :=
  ⟨(Real.exp_lt_exp.mpr (by norm_num : (-1 : ℝ) < 1)).ne', Nat.one_pos, le_rfl,
    (delay_option_value_recurrence 1 90 (6 / 100) 100 (5 / 100) 1
      (Real.exp_lt_exp.mpr (by norm_num : (-1 : ℝ) < 1)).ne').1,
    (delay_option_value_recurrence 1 90 (6 / 100) 100 (5 / 100) 1
      (Real.exp_lt_exp.mpr (by norm_num : (-1 : ℝ) < 1)).ne').2 0 0 Nat.one_pos le_rfl⟩

/-! ### Numeric bounds for the `periods = 2, basePrice = 90, volatility = 0.3`
scenario -/

theorem exp_three_tenths_sum :
    ∑ m ∈ Finset.range 7, (3 / 10 : ℝ) ^ m / m.factorial = 107988701 / 80000000 := by
  norm_num [Finset.sum_range_succ, Nat.factorial]

theorem exp_three_tenths_bounds :
    (1.3498587 : ℝ) < Real.exp (3 / 10) ∧ Real.exp (3 / 10) < 1.3498589 := by
  have habs : |(3 / 10 : ℝ)| = 3 / 10 := abs_of_nonneg (by norm_num)
  have hlo := Real.sum_le_exp_of_nonneg (by norm_num : (0 : ℝ) ≤ 3 / 10) 7
  have hhi := Real.exp_bound (x := (3 / 10 : ℝ)) (by rw [habs]; norm_num)
    (n := 7) (by norm_num)
  rw [exp_three_tenths_sum] at hlo hhi
  rw [habs] at hhi
  have h2 := (abs_le.mp hhi).2
  norm_num [Nat.factorial] at h2
  constructor
  · calc (1.3498587 : ℝ) < 107988701 / 80000000 := by norm_num
      _ ≤ Real.exp (3 / 10) := hlo
  · linarith

theorem exp_neg_three_tenths_mul :
    Real.exp (-(3 / 10)) * Real.exp (3 / 10) = 1 := by
  rw [← Real.exp_add]
  norm_num

theorem exp_neg_three_tenths_bounds :
    (0.7408181 : ℝ) < Real.exp (-(3 / 10)) ∧ Real.exp (-(3 / 10)) < 0.7408184 := by
  obtain ⟨ha, hb⟩ := exp_three_tenths_bounds
  have hmul := exp_neg_three_tenths_mul
  have hEpos : (0 : ℝ) < Real.exp (-(3 / 10)) := Real.exp_pos _
  constructor
  · have h1 := mul_lt_mul_of_pos_left hb hEpos
    rw [hmul] at h1
    linarith
  · have h2 := mul_lt_mul_of_pos_left ha hEpos
    rw [hmul] at h2
    linarith

theorem base_instr_two_expand :
    base_instr 2 90 (3 / 10) =
      [[90], [90 * Real.exp (3 / 10), 90 * Real.exp (-(3 / 10))],
       [90 * Real.exp (3 / 10) * Real.exp (3 / 10),
        90 * Real.exp (3 / 10) * Real.exp (-(3 / 10)),
        90 * Real.exp (-(3 / 10)) * Real.exp (-(3 / 10))]] := rfl

/-- C9 (counterexample): at `periods = 2, basePrice = 90, volatility = 0.3`,
the displayed-value claim `slice 1 ≈ [121.40, 66.77]`, `slice 2 ≈ [163.89,
90.00, 49.56]` is false: already `90 * exp(0.3) ≈ 121.49` is more than half a
cent away from `121.40`. -/
theorem base_instr_example_cex :
    ¬ (node (base_instr 2 90 (3 / 10)) 0 0 = 90 ∧
       |node (base_instr 2 90 (3 / 10)) 1 0 - 121.40| ≤ 1 / 200 ∧
       |node (base_instr 2 90 (3 / 10)) 1 1 - 66.77| ≤ 1 / 200 ∧
       |node (base_instr 2 90 (3 / 10)) 2 0 - 163.89| ≤ 1 / 200 ∧
       |node (base_instr 2 90 (3 / 10)) 2 1 - 90| ≤ 1 / 200 ∧
       |node (base_instr 2 90 (3 / 10)) 2 2 - 49.56| ≤ 1 / 200) := by
  intro h
  obtain ⟨-, h1, -⟩ := h
  obtain ⟨ha, hb⟩ := exp_three_tenths_bounds
  have h10 : node (base_instr 2 90 (3 / 10)) 1 0 = 90 * Real.exp (3 / 10) := by
    rw [base_instr_two_expand]; rfl
  rw [h10] at h1
  have h2 := (abs_le.mp h1).2
  linarith

/-- C9 (amended): at `periods = 2, basePrice = 90, volatility = 0.3` the
`base_instr` lattice is slice 0 = `[90.00]`, slice 1 ≈ `[121.49, 66.67]`,
slice 2 ≈ `[163.99, 90.00, 49.39]`, to the two decimal places displayed (the
middle node of slice 2 is exactly `90`). -/
theorem base_instr_example_values :
    node (base_instr 2 90 (3 / 10)) 0 0 = 90 ∧
    |node (base_instr 2 90 (3 / 10)) 1 0 - 121.49| < 1 / 200 ∧
    |node (base_instr 2 90 (3 / 10)) 1 1 - 66.67| < 1 / 200 ∧
    |node (base_instr 2 90 (3 / 10)) 2 0 - 163.99| < 1 / 200 ∧
    node (base_instr 2 90 (3 / 10)) 2 1 = 90 ∧
    |node (base_instr 2 90 (3 / 10)) 2 2 - 49.39| < 1 / 200 := by
  obtain ⟨ha, hb⟩ := exp_three_tenths_bounds
  obtain ⟨hc, hd⟩ := exp_neg_three_tenths_bounds
  have hmul := exp_neg_three_tenths_mul
  have h00 : node (base_instr 2 90 (3 / 10)) 0 0 = 90 := by
    rw [base_instr_two_expand]; rfl
  have h10 : node (base_instr 2 90 (3 / 10)) 1 0 = 90 * Real.exp (3 / 10) := by
    rw [base_instr_two_expand]; rfl
  have h11 : node (base_instr 2 90 (3 / 10)) 1 1 = 90 * Real.exp (-(3 / 10)) := by
    rw [base_instr_two_expand]; rfl
  have h20 : node (base_instr 2 90 (3 / 10)) 2 0 =
      90 * Real.exp (3 / 10) * Real.exp (3 / 10) := by
    rw [base_instr_two_expand]; rfl
  have h21 : node (base_instr 2 90 (3 / 10)) 2 1 =
      90 * Real.exp (3 / 10) * Real.exp (-(3 / 10)) := by
    rw [base_instr_two_expand]; rfl
  have h22 : node (base_instr 2 90 (3 / 10)) 2 2 =
      90 * Real.exp (-(3 / 10)) * Real.exp (-(3 / 10)) := by
    rw [base_instr_two_expand]; rfl
  refine ⟨h00, ?_, ?_, ?_, ?_, ?_⟩
  · rw [h10, abs_lt]
    constructor <;> linarith
  · rw [h11, abs_lt]
    constructor <;> linarith
  · rw [h20, abs_lt]
    have hsq_lo : (1.3498587 : ℝ) * 1.3498587 < Real.exp (3 / 10) * Real.exp (3 / 10) :=
      mul_lt_mul'' ha ha (by norm_num) (by norm_num)
    have hsq_hi : Real.exp (3 / 10) * Real.exp (3 / 10) < 1.3498589 * 1.3498589 :=
      mul_lt_mul'' hb hb (le_of_lt (Real.exp_pos _)) (le_of_lt (Real.exp_pos _))
    rw [show (90 : ℝ) * Real.exp (3 / 10) * Real.exp (3 / 10) =
      90 * (Real.exp (3 / 10) * Real.exp (3 / 10)) from by ring]
    constructor <;> linarith
  · rw [h21, show (90 : ℝ) * Real.exp (3 / 10) * Real.exp (-(3 / 10)) =
      90 * (Real.exp (-(3 / 10)) * Real.exp (3 / 10)) from by ring, hmul, mul_one]
  · rw [h22, abs_lt]
    have hsq_lo : (0.7408181 : ℝ) * 0.7408181 <
        Real.exp (-(3 / 10)) * Real.exp (-(3 / 10)) :=
      mul_lt_mul'' hc hc (by norm_num) (by norm_num)
    have hsq_hi : Real.exp (-(3 / 10)) * Real.exp (-(3 / 10)) < 0.7408184 * 0.7408184 :=
      mul_lt_mul'' hd hd (le_of_lt (Real.exp_pos _)) (le_of_lt (Real.exp_pos _))
    rw [show (90 : ℝ) * Real.exp (-(3 / 10)) * Real.exp (-(3 / 10)) =
      90 * (Real.exp (-(3 / 10)) * Real.exp (-(3 / 10))) from by ring]
    constructor <;> linarith

/-- C5 (code behaviour): a negative period count is not rejected; `base_instr`
builds and returns the single-slice lattice `[[base_price]]` (both `range`
loops in the source are empty for negative `periods`). -/
theorem base_instr_negative_periods :
    base_instr (-1) 90 (3 / 10) = [[90]] := rfl

/-- C4 (code behaviour): at `volatility = 0` (so `u = d`) the call
`delay_option_value(1, 90, 0.06, 100, 0.05, 0)` still returns a full
two-slice lattice; no error is reported to the caller. -/
theorem delay_option_value_zero_volatility_shape :
    (delay_option_value 1 90 (6 / 100) 100 (5 / 100) 0).length = 2 ∧
    ((delay_option_value 1 90 (6 / 100) 100 (5 / 100) 0).getD 0 []).length = 1 ∧
    ((delay_option_value 1 90 (6 / 100) 100 (5 / 100) 0).getD 1 []).length = 2 := by
  have h1 : (1 : ℤ) = ((1 : ℕ) : ℤ) := rfl
  refine ⟨?_, ?_, ?_⟩
  · simp only [delay_option_value, h1]
    rw [backInduct_length, internal_value_length]
  · simp only [delay_option_value, h1]
    rw [backInduct_slice_length, internal_value_slice_length 1 90 100 0 0 (Nat.zero_le 1)]
  · simp only [delay_option_value, h1]
    rw [backInduct_slice_length, internal_value_slice_length 1 90 100 0 1 le_rfl]

end Trees
